import Mathlib

/-!
Verification development for the chronicle-slides collaborative slide editor.

JavaScript strings are modelled as lists of characters (`JStr`); fields that
JavaScript may leave `undefined` are modelled with `Option`; the JavaScript
truthiness test used by `||` on strings and numbers is modelled explicitly
(`jsOrStr`, `jsOrNat`).  Each definition is a direct translation of the
corresponding function in the repository source, keeping its name where Lean
allows it.
-/

/-- JavaScript strings, modelled as lists of characters. -/
abbrev JStr := List Char

/-! ## Diff engine inside `setValue` (src/unnamed/part_003, lines 212-247) -/

/-- The first while loop of `setValue`: counts characters identical from index
0 in both strings, stopping at the first mismatch or at the end of the
shorter string. -/
def commonPfxLen : JStr → JStr → Nat
  | a :: as, b :: bs => if a = b then commonPfxLen as bs + 1 else 0
  | _, _ => 0

/-- Worker for the second while loop of `setValue`, phrased on the reversed
strings: counts matching characters while the count stays below both caps
(`prev.length - pfxLen` and `next.length - pfxLen` at the call site). -/
def commonSfxLenAux : Nat → Nat → JStr → JStr → Nat
  | c1 + 1, c2 + 1, a :: as, b :: bs =>
      if a = b then commonSfxLenAux c1 c2 as bs + 1 else 0
  | _, _, _, _ => 0

/-- The second while loop of `setValue`: the common-suffix length, bounded so
that the prefix and the suffix never overlap.  `prev[prev.length - 1 - s]` is
character `s` of the reversed string. -/
def commonSfxLen (prev next : JStr) (pfxLen : Nat) : Nat :=
  commonSfxLenAux (prev.length - pfxLen) (next.length - pfxLen)
    prev.reverse next.reverse

/-- The diff computed inside `setValue`: common-prefix length, common-suffix
length, delete length `prev.length - pfxLen - sfxLen`, and the insert string
`next.slice(pfxLen, next.length - sfxLen)`. -/
def diffOf (prev next : JStr) : Nat × Nat × Nat × JStr :=
  let p := commonPfxLen prev next
  let s := commonSfxLen prev next p
  (p, s, prev.length - p - s, (next.take (next.length - s)).drop p)

/-- `Y.Text.delete(pos, len)`: removes `len` characters starting at `pos`. -/
def strDelete (l : JStr) (pos len : Nat) : JStr :=
  l.take pos ++ l.drop (pos + len)

/-- `Y.Text.insert(pos, s)`: inserts `s` at position `pos`. -/
def strInsert (l : JStr) (pos : Nat) (s : JStr) : JStr :=
  l.take pos ++ s ++ l.drop pos

/-- The body of the transaction inside `setValue`: delete the changed middle
part (guarded by `deleteLen > 0`), then insert the new middle part (guarded by
`insertText.length > 0`). -/
def applyDiff (prev next : JStr) : JStr :=
  match diffOf prev next with
  | (p, _, d, ins) =>
    let afterDel := if 0 < d then strDelete prev p d else prev
    if 0 < ins.length then strInsert afterDel p ins else afterDel

/-- `setValue` at the string level: returns the materialized string after the
call together with the number of transactions issued (`setValue` returns
before opening a transaction when `prev === next`). -/
def setValue (prev next : JStr) : JStr × Nat :=
  if prev = next then (prev, 0) else (applyDiff prev next, 1)

theorem commonPfxLen_le_left : ∀ a b : JStr, commonPfxLen a b ≤ a.length
  | [], _ => by simp [commonPfxLen]
  | _ :: _, [] => by simp [commonPfxLen]
  | a :: as, b :: bs => by
    by_cases h : a = b
    · simpa [commonPfxLen, h, Nat.succ_le_succ_iff] using commonPfxLen_le_left as bs
    · simp [commonPfxLen, h]

theorem commonPfxLen_le_right : ∀ a b : JStr, commonPfxLen a b ≤ b.length
  | [], _ => by simp [commonPfxLen]
  | _ :: _, [] => by simp [commonPfxLen]
  | a :: as, b :: bs => by
    by_cases h : a = b
    · simpa [commonPfxLen, h, Nat.succ_le_succ_iff] using commonPfxLen_le_right as bs
    · simp [commonPfxLen, h]

theorem commonPfxLen_take_eq : ∀ a b : JStr,
    a.take (commonPfxLen a b) = b.take (commonPfxLen a b)
  | [], _ => by simp [commonPfxLen]
  | _ :: _, [] => by simp [commonPfxLen]
  | a :: as, b :: bs => by
    by_cases h : a = b
    · simpa [commonPfxLen, h] using commonPfxLen_take_eq as bs
    · simp [commonPfxLen, h]

theorem commonSfxLenAux_le_c1 : ∀ (c1 c2 : Nat) (a b : JStr),
    commonSfxLenAux c1 c2 a b ≤ c1
  | 0, _, _, _ => by simp [commonSfxLenAux]
  | _ + 1, 0, _, _ => by simp [commonSfxLenAux]
  | _ + 1, _ + 1, [], _ => by simp [commonSfxLenAux]
  | _ + 1, _ + 1, _ :: _, [] => by simp [commonSfxLenAux]
  | c1 + 1, c2 + 1, a :: as, b :: bs => by
    by_cases h : a = b
    · simpa [commonSfxLenAux, h, Nat.succ_le_succ_iff] using
        commonSfxLenAux_le_c1 c1 c2 as bs
    · simp [commonSfxLenAux, h]

theorem commonSfxLenAux_le_c2 : ∀ (c1 c2 : Nat) (a b : JStr),
    commonSfxLenAux c1 c2 a b ≤ c2
  | 0, _, _, _ => by simp [commonSfxLenAux]
  | _ + 1, 0, _, _ => by simp [commonSfxLenAux]
  | _ + 1, _ + 1, [], _ => by simp [commonSfxLenAux]
  | _ + 1, _ + 1, _ :: _, [] => by simp [commonSfxLenAux]
  | c1 + 1, c2 + 1, a :: as, b :: bs => by
    by_cases h : a = b
    · simpa [commonSfxLenAux, h, Nat.succ_le_succ_iff] using
        commonSfxLenAux_le_c2 c1 c2 as bs
    · simp [commonSfxLenAux, h]

theorem commonSfxLenAux_take_eq : ∀ (c1 c2 : Nat) (a b : JStr),
    a.take (commonSfxLenAux c1 c2 a b) = b.take (commonSfxLenAux c1 c2 a b)
  | 0, _, _, _ => by simp [commonSfxLenAux]
  | _ + 1, 0, _, _ => by simp [commonSfxLenAux]
  | _ + 1, _ + 1, [], b => by simp [commonSfxLenAux]
  | _ + 1, _ + 1, _ :: _, [] => by simp [commonSfxLenAux]
  | c1 + 1, c2 + 1, a :: as, b :: bs => by
    by_cases h : a = b
    · simpa [commonSfxLenAux, h] using commonSfxLenAux_take_eq c1 c2 as bs
    · simp [commonSfxLenAux, h]

/-- Two strings whose reversals agree on their first `s` characters agree on
their last `s` characters. -/
theorem drop_eq_of_rev_take_eq (a b : JStr) (s : Nat) (ha : s ≤ a.length)
    (hb : s ≤ b.length) (h : a.reverse.take s = b.reverse.take s) :
    a.drop (a.length - s) = b.drop (b.length - s) := by
  have h1 : (a.drop (a.length - s)).reverse = a.reverse.take s := by
    rw [List.reverse_drop]
    congr 1
    omega
  have h2 : (b.drop (b.length - s)).reverse = b.reverse.take s := by
    rw [List.reverse_drop]
    congr 1
    omega
  exact List.reverse_injective (h1.trans (h.trans h2.symm))

theorem strDelete_zero (l : JStr) (pos : Nat) : strDelete l pos 0 = l := by
  simp [strDelete]

theorem strInsert_nil (l : JStr) (pos : Nat) : strInsert l pos [] = l := by
  simp [strInsert]

/-- Bundle of the structural facts about `diffOf`. -/
theorem diffOf_spec (prev next : JStr) (p s d : Nat) (ins : JStr)
    (hdiff : diffOf prev next = (p, s, d, ins)) :
    prev.take p = next.take p ∧
    prev.drop (prev.length - s) = next.drop (next.length - s) ∧
    p ≤ prev.length ∧ p ≤ next.length ∧
    s ≤ prev.length - p ∧ s ≤ next.length - p ∧
    d = prev.length - p - s ∧
    ins = (next.take (next.length - s)).drop p := by
  have h := hdiff
  simp only [diffOf, Prod.mk.injEq] at h
  obtain ⟨hp0, hs0, hd0, hins0⟩ := h
  have hp : p = commonPfxLen prev next := hp0.symm
  have hs : s = commonSfxLen prev next p := by rw [hp]; exact hs0.symm
  have hd : d = prev.length - p - s := by rw [hp, hs, hp]; exact hd0.symm
  have hins : ins = (next.take (next.length - s)).drop p := by
    rw [hs, hp]
    exact hins0.symm
  have hp1 : p ≤ prev.length := hp ▸ commonPfxLen_le_left prev next
  have hp2 : p ≤ next.length := hp ▸ commonPfxLen_le_right prev next
  have hs1 : s ≤ prev.length - p := by
    rw [hs]
    exact commonSfxLenAux_le_c1 _ _ _ _
  have hs2 : s ≤ next.length - p := by
    rw [hs]
    exact commonSfxLenAux_le_c2 _ _ _ _
  have hsp : s ≤ prev.length := by omega
  have hsn : s ≤ next.length := by omega
  have hst : prev.reverse.take s = next.reverse.take s := by
    rw [hs]
    exact commonSfxLenAux_take_eq _ _ _ _
  refine ⟨?_, ?_, hp1, hp2, hs1, hs2, hd, hins⟩
  · rw [hp]
    exact commonPfxLen_take_eq prev next
  · exact drop_eq_of_rev_take_eq prev next s hsp hsn hst

/-- Reconstruction: deleting the middle `d` characters at position `p` and
inserting the computed insert string there turns `prev` into `next`. -/
theorem strInsert_strDelete_diff (prev next : JStr) (p s d : Nat) (ins : JStr)
    (hdiff : diffOf prev next = (p, s, d, ins)) :
    strInsert (strDelete prev p d) p ins = next := by
  obtain ⟨hpt, hsd, hp1, hp2, hs1, hs2, hd, hins⟩ :=
    diffOf_spec prev next p s d ins hdiff
  have hpd : p + d = prev.length - s := by omega
  have hlen : (prev.take p).length = p := by
    rw [List.length_take]
    omega
  have hXtake : (strDelete prev p d).take p = prev.take p := by
    rw [strDelete, List.take_left' hlen]
  have hXdrop : (strDelete prev p d).drop p = prev.drop (prev.length - s) := by
    rw [strDelete, List.drop_left' hlen, hpd]
  have hpns : p ≤ next.length - s := by omega
  have htt : next.take p = (next.take (next.length - s)).take p := by
    rw [List.take_take]
    congr 1
    omega
  rw [strInsert, hXtake, hXdrop, hpt, hsd, hins, htt,
    List.take_append_drop, List.take_append_drop]

/-- `applyDiff` always reconstructs the target string. -/
theorem applyDiff_eq (prev next : JStr) : applyDiff prev next = next := by
  rcases hdiff : diffOf prev next with ⟨p, s, d, ins⟩
  have hmain := strInsert_strDelete_diff prev next p s d ins hdiff
  rw [applyDiff, hdiff]
  by_cases hd : 0 < d
  · by_cases hi : 0 < ins.length
    · simpa [hd, hi] using hmain
    · have hins : ins = [] := by
        cases ins
        · rfl
        · simp at hi
      simp only [hd, if_true, hi, if_false]
      rw [hins, strInsert_nil] at hmain
      exact hmain
  · have hd0 : d = 0 := by omega
    by_cases hi : 0 < ins.length
    · simp only [hd, if_false, hi, if_true]
      rw [hd0, strDelete_zero] at hmain
      exact hmain
    · have hins : ins = [] := by
        cases ins
        · rfl
        · simp at hi
      simp only [hd, if_false, hi]
      rw [hd0, strDelete_zero, hins, strInsert_nil] at hmain
      exact hmain

/-- C1: for every pair of strings with `P ≠ N`, the diff computed inside
`setValue` satisfies: the common-prefix length `p` has `P[0:p] = N[0:p]`, the
common-suffix length `s` has `P[|P|-s:] = N[|N|-s:]`, `p + s ≤ min (|P|, |N|)`,
the delete length is `d = |P| - p - s`, the insert string is `N[p : |N|-s]`,
and applying the delete of `d` characters at position `p` followed by the
insert at position `p` to `P` yields exactly `N`. -/
theorem C1_setValue_diff_correct (P N : JStr) (p s d : Nat) (ins : JStr)
    (_hne : P ≠ N) (hdiff : diffOf P N = (p, s, d, ins)) :
    P.take p = N.take p ∧
    P.drop (P.length - s) = N.drop (N.length - s) ∧
    p + s ≤ min P.length N.length ∧
    d = P.length - p - s ∧
    ins = (N.take (N.length - s)).drop p ∧
    strInsert (strDelete P p d) p ins = N := by
  obtain ⟨h1, h2, hp1, hp2, hs1, hs2, hd, hins⟩ :=
    diffOf_spec P N p s d ins hdiff
  exact ⟨h1, h2, by omega, hd, hins,
    strInsert_strDelete_diff P N p s d ins hdiff⟩

/-- Witness for C1 at `P = "Hello"`, `N = "Hello World"`: the diff is prefix
5, suffix 0, delete 0, insert `" World"`, and the reconstruction holds. -/
theorem C1_setValue_diff_correct_witness :
    ("Hello".toList ≠ "Hello World".toList) ∧
    diffOf "Hello".toList "Hello World".toList = (5, 0, 0, " World".toList) ∧
    ("Hello".toList.take 5 = "Hello World".toList.take 5 ∧
     "Hello".toList.drop ("Hello".toList.length - 0) =
       "Hello World".toList.drop ("Hello World".toList.length - 0) ∧
     5 + 0 ≤ min "Hello".toList.length "Hello World".toList.length ∧
     0 = "Hello".toList.length - 5 - 0 ∧
     " World".toList =
       ("Hello World".toList.take ("Hello World".toList.length - 0)).drop 5 ∧
     strInsert (strDelete "Hello".toList 5 0) 5 " World".toList =
       "Hello World".toList) :=
  ⟨by decide, by decide,
    C1_setValue_diff_correct "Hello".toList "Hello World".toList 5 0 0
      " World".toList (by decide) (by decide)⟩

/-- C3: calling `setValue x` when the materialized value is already `x`
issues no transaction and leaves the value unchanged; two consecutive
`setValue x` calls issue at most one transaction in total, the second being a
true no-op. -/
theorem C3_setValue_noop_idempotent (x prev : JStr) :
    setValue x x = (x, 0) ∧
    (setValue prev x).1 = x ∧
    setValue (setValue prev x).1 x = (x, 0) ∧
    (setValue prev x).2 + (setValue (setValue prev x).1 x).2 ≤ 1 := by
  have hx : setValue x x = (x, 0) := by simp [setValue]
  have h1 : (setValue prev x).1 = x := by
    by_cases h : prev = x
    · simp [setValue, h]
    · simp [setValue, h, applyDiff_eq]
  refine ⟨hx, h1, by rw [h1]; exact hx, ?_⟩
  rw [h1, hx]
  by_cases h : prev = x <;> simp [setValue, h]

/-! ## Data model (src/unnamed/part_000, slide.types.ts) -/

/-- A text box record. -/
structure TextBox where
  id : JStr
  text : JStr
  x : Int
  y : Int
  width : Int
  height : Int
  fontSize : Int
  color : JStr
  createdBy : JStr
  createdAt : Nat
  deriving DecidableEq

/-- The `textBoxes` field of a stored slide record: either a proper array of
text boxes, or a legacy/corrupt non-array value (the shape the migration in
`useSlideManagement` repairs). -/
inductive TextBoxesField where
  | arr (boxes : List TextBox)
  | legacy
  deriving DecidableEq

/-- A slide record as stored.  `backgroundColor` and `createdAt` are `Option`
because legacy records may lack them. -/
structure Slide where
  id : JStr
  textBoxes : TextBoxesField
  backgroundColor : Option JStr
  createdAt : Option Nat
  deriving DecidableEq

/-! ## Access/visibility policy: useShareMode (src/unnamed/part_004) -/

/-- JavaScript `s.split(',')`. -/
def splitOnComma : JStr → List JStr
  | [] => [[]]
  | c :: rest =>
    match splitOnComma rest with
    | h :: t => if c = ',' then [] :: h :: t else (c :: h) :: t
    | [] => [[c]]

/-- Result record of `useShareMode`. -/
structure UseShareModeResult where
  readOnly : Bool
  visibleSlides : List Slide
  allowedSlideIds : Option (List JStr)
  isSharedMode : Bool
  deriving DecidableEq

/-- The first `useMemo` of `useShareMode`: parses the `shared` and `edit` URL
parameters.  In JavaScript `!sharedParam` is true when the parameter is
absent or the empty string; the id set is the comma-split pieces with empty
pieces dropped (`filter(Boolean)`); `canEdit` is `editParam === 'true'`. -/
def parseShareParams (sharedParam editParam : Option JStr) :
    Option (List JStr) × Bool :=
  match sharedParam with
  | none => (none, false)
  | some s =>
    if s = [] then (none, false)
    else (some ((splitOnComma s).filter (fun piece => piece != [])),
      editParam == some "true".toList)

/-- `useShareMode` (src/unnamed/part_004, lines 39-76): derives the
share-link mode, read-only flag and visible slide list from the (nullable)
slide list and the two URL parameters. -/
def useShareMode (slides : Option (List Slide))
    (sharedParam editParam : Option JStr) : UseShareModeResult :=
  let parsed := parseShareParams sharedParam editParam
  let allowedSlideIds := parsed.1
  let canEdit := parsed.2
  let isSharedMode := allowedSlideIds.isSome
  let readOnly := isSharedMode && !canEdit
  let visibleSlides :=
    match slides with
    | none => []
    | some sl =>
      match allowedSlideIds with
      | none => sl
      | some ids => sl.filter (fun slide => ids.contains slide.id)
  ⟨readOnly, visibleSlides, allowedSlideIds, isSharedMode⟩

/-- `splitOnComma` never returns the empty list of pieces. -/
theorem splitOnComma_ne_nil : ∀ s : JStr, splitOnComma s ≠ []
  | [] => by simp [splitOnComma]
  | c :: rest => by
    rcases hsplit : splitOnComma rest with _ | ⟨hd, tl⟩
    · simp [splitOnComma, hsplit]
    · simp only [splitOnComma, hsplit]
      split <;> simp

/-- Every piece of the comma-split of an all-comma string is empty. -/
theorem splitOnComma_all_commas : ∀ s : JStr, (∀ c ∈ s, c = ',') →
    ∀ piece ∈ splitOnComma s, piece = []
  | [], _ => by simp [splitOnComma]
  | c :: rest, h => by
    have hc : c = ',' := h c (by simp)
    subst hc
    have hrest : ∀ x ∈ rest, x = ',' := fun x hx => h x (by simp [hx])
    have ih := splitOnComma_all_commas rest hrest
    intro piece hp
    rcases hsplit : splitOnComma rest with _ | ⟨hd, tl⟩
    · exact absurd hsplit (splitOnComma_ne_nil rest)
    · have heq : splitOnComma (',' :: rest) = [] :: hd :: tl := by
        simp [splitOnComma, hsplit]
      rw [heq] at hp
      rcases List.mem_cons.mp hp with h1 | h2
      · exact h1
      · exact ih piece (by rw [hsplit]; exact h2)

/-- C2: the access/visibility policy is a pure function of the slide list and
the link token.  No shared token: not shared, not read-only, null id set, all
slides visible.  A (non-empty) token: shared mode, visible slides are the
full list filtered in order to the listed ids, and read-only exactly when the
edit flag is not `'true'`.  Concrete instance: slides `a,b,c` with token
`visible = \x7ba,c\x7d` and `edit = false` give visible `[a, c]` and
`readOnly = true`. -/
theorem C2_useShareMode_policy (sl : List Slide) (e : Option JStr) (s : JStr)
    (hs : s ≠ []) :
    useShareMode (some sl) none e = ⟨false, sl, none, false⟩ ∧
    (useShareMode (some sl) (some s) e).isSharedMode = true ∧
    (useShareMode (some sl) (some s) e).allowedSlideIds =
      some ((splitOnComma s).filter (fun piece => piece != [])) ∧
    (useShareMode (some sl) (some s) e).visibleSlides =
      sl.filter (fun slide =>
        ((splitOnComma s).filter (fun piece => piece != [])).contains slide.id) ∧
    ((useShareMode (some sl) (some s) e).readOnly = true ↔
      e ≠ some "true".toList) ∧
    useShareMode
        (some [⟨"a".toList, .arr [], some "white".toList, some 1⟩,
               ⟨"b".toList, .arr [], some "white".toList, some 2⟩,
               ⟨"c".toList, .arr [], some "white".toList, some 3⟩])
        (some "a,c".toList) (some "false".toList) =
      ⟨true,
       [⟨"a".toList, .arr [], some "white".toList, some 1⟩,
        ⟨"c".toList, .arr [], some "white".toList, some 3⟩],
       some ["a".toList, "c".toList], true⟩ := by
  refine ⟨rfl, ?_, ?_, ?_, ?_, by decide⟩ <;>
    simp [useShareMode, parseShareParams, hs]

/-- Witness for C2 with the non-empty token `"a,c"`. -/
theorem C2_useShareMode_policy_witness :
    (("a,c".toList : JStr) ≠ []) ∧
    (useShareMode (some []) (some "a,c".toList) none).isSharedMode = true :=
  ⟨by decide, (C2_useShareMode_policy [] none "a,c".toList (by decide)).2.1⟩

/-- C10: a `shared` URL parameter that is present but empty is treated
exactly like an absent parameter, while a non-empty parameter consisting only
of commas yields shared mode with an empty allowed-id set, no visible slides,
and read-only unless the edit parameter equals `'true'`. -/
theorem C10_empty_and_comma_tokens (sl : List Slide)
    (slides : Option (List Slide)) (e : Option JStr) (s : JStr)
    (hne : s ≠ []) (hcommas : ∀ c ∈ s, c = ',') :
    useShareMode slides (some []) e = useShareMode slides none e ∧
    useShareMode (some sl) (some []) e = ⟨false, sl, none, false⟩ ∧
    (useShareMode (some sl) (some s) e).isSharedMode = true ∧
    (useShareMode (some sl) (some s) e).allowedSlideIds = some [] ∧
    (useShareMode (some sl) (some s) e).visibleSlides = [] ∧
    ((useShareMode (some sl) (some s) e).readOnly = true ↔
      e ≠ some "true".toList) := by
  have hall : (splitOnComma s).filter (fun piece => piece != []) = [] := by
    rw [List.filter_eq_nil_iff]
    intro a ha
    simp [splitOnComma_all_commas s hcommas a ha]
  refine ⟨rfl, rfl, ?_, ?_, ?_, ?_⟩ <;>
    simp [useShareMode, parseShareParams, hne, hall]

/-- Witness for C10 with the comma-only token `",,"`. -/
theorem C10_empty_and_comma_tokens_witness :
    ((",,".toList : JStr) ≠ [] ∧ ∀ c ∈ ",,".toList, c = ',') ∧
    (useShareMode (some []) (some ",,".toList) none).allowedSlideIds =
      some [] :=
  ⟨⟨by decide, by decide⟩,
    (C10_empty_and_comma_tokens [] (some []) none ",,".toList (by decide)
      (by decide)).2.2.2.1⟩

/-! ## Shared structural store mutations
(src/src/hooks/useCollaborativeText.ts: useSlideManagement and
useTextBoxManagement) -/

/-- JavaScript `v || d` for string-valued fields: `undefined` and the empty
string are falsy. -/
def jsOrStr (v : Option JStr) (d : JStr) : JStr :=
  match v with
  | some s => if s = [] then d else s
  | none => d

/-- JavaScript `v || d` for number-valued fields: `undefined` and `0` are
falsy. -/
def jsOrNat (v : Option Nat) (d : Nat) : Nat :=
  match v with
  | some n => if n = 0 then d else n
  | none => d

/-- `!Array.isArray(slide.textBoxes)`: the test both the migration guard in
`SlideList` and the map inside `migrateSlides` perform. -/
def slideNeedsMigration (slide : Slide) : Bool :=
  match slide.textBoxes with
  | .arr _ => false
  | .legacy => true

/-- The per-slide transform inside `migrateSlides` (lines 308-319): a slide
whose `textBoxes` is not an array is rebuilt with an empty array, with
`backgroundColor || SLIDE_DEFAULTS.BACKGROUND_COLOR` and
`createdAt || Date.now()`; any other slide is returned unchanged. -/
def migrateSlide (defaultBg : JStr) (now : Nat) (slide : Slide) : Slide :=
  match slide.textBoxes with
  | .arr _ => slide
  | .legacy =>
    { id := slide.id
      textBoxes := .arr []
      backgroundColor := some (jsOrStr slide.backgroundColor defaultBg)
      createdAt := some (jsOrNat slide.createdAt now) }

/-- `migrateSlides` (useSlideManagement, lines 304-324): maps the transform
over the stored list and writes the result back only when some slide needed
migration; `none` models "storage.set not called". -/
def migrateSlides (defaultBg : JStr) (now : Nat) (slides : List Slide) :
    Option (List Slide) :=
  if slides.any slideNeedsMigration then
    some (slides.map (migrateSlide defaultBg now))
  else none

/-- The stored slide list after a `migrateSlides` call. -/
def migrateStep (defaultBg : JStr) (now : Nat) (slides : List Slide) :
    List Slide :=
  (migrateSlides defaultBg now slides).getD slides

/-- `Array.isArray(slide.textBoxes) ? slide.textBoxes : []`. -/
def existingTextBoxes (f : TextBoxesField) : List TextBox :=
  match f with
  | .arr l => l
  | .legacy => []

/-- The optional field updates passed to `updateTextBox` (a JavaScript
object of type `Partial<TextBox>`; an absent key is `none`). -/
structure TextBoxUpd where
  id : Option JStr := none
  text : Option JStr := none
  x : Option Int := none
  y : Option Int := none
  width : Option Int := none
  height : Option Int := none
  fontSize : Option Int := none
  color : Option JStr := none
  createdBy : Option JStr := none
  createdAt : Option Nat := none
  deriving DecidableEq

/-- JavaScript object spread `{ ...textBox, ...updates }`: each field is
overridden exactly when the update carries that key. -/
def mergeTextBox (tb : TextBox) (u : TextBoxUpd) : TextBox :=
  { id := u.id.getD tb.id
    text := u.text.getD tb.text
    x := u.x.getD tb.x
    y := u.y.getD tb.y
    width := u.width.getD tb.width
    height := u.height.getD tb.height
    fontSize := u.fontSize.getD tb.fontSize
    color := u.color.getD tb.color
    createdBy := u.createdBy.getD tb.createdBy
    createdAt := u.createdAt.getD tb.createdAt }

/-- The body of the `currentSlides.map` inside `updateTextBoxMutation`
(useTextBoxManagement, lines 183-195). -/
def updateSlideEntry (slideId textBoxId : JStr) (u : TextBoxUpd)
    (slide : Slide) : Slide :=
  if slide.id = slideId then
    { slide with
        textBoxes := .arr ((existingTextBoxes slide.textBoxes).map
          (fun tb => if tb.id = textBoxId then mergeTextBox tb u else tb)) }
  else slide

/-- `updateTextBoxMutation` (useTextBoxManagement, lines 180-199). -/
def updateTextBoxMutation (slides : List Slide) (slideId textBoxId : JStr)
    (u : TextBoxUpd) : List Slide :=
  slides.map (updateSlideEntry slideId textBoxId u)

/-- `deleteSlide` (useSlideManagement, lines 293-297). -/
def deleteSlide (slides : List Slide) (slideId : JStr) : List Slide :=
  slides.filter (fun slide => slide.id != slideId)

/-- A migrated slide is always well-formed, so a second migration pass finds
nothing to do. -/
theorem migrateSlide_wellformed (defaultBg : JStr) (now : Nat)
    (slide : Slide) :
    slideNeedsMigration (migrateSlide defaultBg now slide) = false := by
  cases h : slide.textBoxes <;>
    simp [migrateSlide, slideNeedsMigration, h]

/-- C4 counterexample: a legacy slide whose `backgroundColor` is present but
empty and whose `createdAt` is present but `0`.  The migration replaces both
with the defaults even though they are present, because the source defaults
with JavaScript `||`, which treats `""` and `0` as falsy. -/
theorem C4_migrate_counterexample :
    slideNeedsMigration ⟨"s".toList, .legacy, some [], some 0⟩ = true ∧
    (⟨"s".toList, .legacy, some [], some 0⟩ : Slide).backgroundColor =
      some [] ∧
    (⟨"s".toList, .legacy, some [], some 0⟩ : Slide).createdAt = some 0 ∧
    migrateStep "white".toList 99 [⟨"s".toList, .legacy, some [], some 0⟩] =
      [⟨"s".toList, .arr [], some "white".toList, some 99⟩] ∧
    (migrateSlide "white".toList 99
      ⟨"s".toList, .legacy, some [], some 0⟩).backgroundColor ≠ some [] ∧
    (migrateSlide "white".toList 99
      ⟨"s".toList, .legacy, some [], some 0⟩).createdAt ≠ some 0 := by
  decide

/-- C4 (amended): migration replaces exactly the slides whose `textBoxes` is
not an array, keeping id, keeping `backgroundColor` when present and
non-empty and `createdAt` when present and non-zero (defaulting otherwise),
with `textBoxes` set to the empty array; well-formed slides are left
completely unchanged; when no slide needs migration the store is not written;
and migration is idempotent. -/
theorem C4_migrateSlides_idempotent_frame (defaultBg : JStr) (now now2 : Nat)
    (slides : List Slide) :
    (∀ slide ∈ slides, slideNeedsMigration slide = false →
      migrateSlide defaultBg now slide = slide) ∧
    (∀ slide : Slide, slideNeedsMigration slide = true →
      (migrateSlide defaultBg now slide).id = slide.id ∧
      (migrateSlide defaultBg now slide).textBoxes = .arr [] ∧
      (∀ v, slide.backgroundColor = some v → v ≠ [] →
        (migrateSlide defaultBg now slide).backgroundColor = some v) ∧
      ((slide.backgroundColor = none ∨ slide.backgroundColor = some []) →
        (migrateSlide defaultBg now slide).backgroundColor =
          some defaultBg) ∧
      (∀ n, slide.createdAt = some n → n ≠ 0 →
        (migrateSlide defaultBg now slide).createdAt = some n) ∧
      ((slide.createdAt = none ∨ slide.createdAt = some 0) →
        (migrateSlide defaultBg now slide).createdAt = some now)) ∧
    ((∀ slide ∈ slides, slideNeedsMigration slide = false) →
      migrateSlides defaultBg now slides = none) ∧
    migrateSlides defaultBg now2 (migrateStep defaultBg now slides) = none ∧
    migrateStep defaultBg now2 (migrateStep defaultBg now slides) =
      migrateStep defaultBg now slides := by
  have hframe : ∀ slide ∈ slides, slideNeedsMigration slide = false →
      migrateSlide defaultBg now slide = slide := by
    intro slide _ hwf
    cases h : slide.textBoxes with
    | arr l => simp [migrateSlide, h]
    | legacy => simp [slideNeedsMigration, h] at hwf
  have hchar : ∀ slide : Slide, slideNeedsMigration slide = true →
      (migrateSlide defaultBg now slide).id = slide.id ∧
      (migrateSlide defaultBg now slide).textBoxes = .arr [] ∧
      (∀ v, slide.backgroundColor = some v → v ≠ [] →
        (migrateSlide defaultBg now slide).backgroundColor = some v) ∧
      ((slide.backgroundColor = none ∨ slide.backgroundColor = some []) →
        (migrateSlide defaultBg now slide).backgroundColor =
          some defaultBg) ∧
      (∀ n, slide.createdAt = some n → n ≠ 0 →
        (migrateSlide defaultBg now slide).createdAt = some n) ∧
      ((slide.createdAt = none ∨ slide.createdAt = some 0) →
        (migrateSlide defaultBg now slide).createdAt = some now) := by
    intro slide hneed
    cases h : slide.textBoxes with
    | arr l => simp [slideNeedsMigration, h] at hneed
    | legacy =>
      refine ⟨by simp [migrateSlide, h], by simp [migrateSlide, h], ?_, ?_,
        ?_, ?_⟩
      · intro v hv hvne
        simp [migrateSlide, h, jsOrStr, hv, hvne]
      · rintro (hbg | hbg) <;> simp [migrateSlide, h, jsOrStr, hbg]
      · intro n hn hnne
        simp [migrateSlide, h, jsOrNat, hn, hnne]
      · rintro (hca | hca) <;> simp [migrateSlide, h, jsOrNat, hca]
  have hnowrite : ∀ l : List Slide,
      (∀ slide ∈ l, slideNeedsMigration slide = false) →
      migrateSlides defaultBg now2 l = none := by
    intro l hl
    have : l.any slideNeedsMigration = false := by
      simp only [List.any_eq_false]
      intro x hx
      simp [hl x hx]
    simp [migrateSlides, this]
  have hsecond : migrateSlides defaultBg now2
      (migrateStep defaultBg now slides) = none := by
    by_cases hany : slides.any slideNeedsMigration
    · have hstep : migrateStep defaultBg now slides =
          slides.map (migrateSlide defaultBg now) := by
        simp [migrateStep, migrateSlides, hany]
      rw [hstep]
      apply hnowrite
      intro slide hs
      obtain ⟨y, _, hy⟩ := List.mem_map.mp hs
      rw [← hy]
      exact migrateSlide_wellformed defaultBg now y
    · have hstep : migrateStep defaultBg now slides = slides := by
        simp [migrateStep, migrateSlides, hany]
      rw [hstep]
      apply hnowrite
      intro slide hs
      exact eq_false_of_ne_true (fun hx => hany (List.any_eq_true.mpr ⟨slide, hs, hx⟩))
  refine ⟨hframe, hchar, ?_, hsecond, ?_⟩
  · intro hl
    have : slides.any slideNeedsMigration = false := by
      simp only [List.any_eq_false]
      intro x hx
      simp [hl x hx]
    simp [migrateSlides, this]
  · rw [migrateStep, hsecond]
    rfl

/-- Witness for C4 on a two-slide list with one legacy and one well-formed
slide. -/
theorem C4_migrateSlides_idempotent_frame_witness :
    migrateSlide "white".toList 7 ⟨"g".toList, .arr [], some "white".toList,
      some 5⟩ = ⟨"g".toList, .arr [], some "white".toList, some 5⟩ ∧
    (migrateSlide "white".toList 7
      (⟨"b".toList, .legacy, none, none⟩ : Slide)).textBoxes = .arr [] ∧
    migrateSlides "white".toList 7
      [⟨"g".toList, .arr [], some "white".toList, some 5⟩] = none ∧
    migrateStep "white".toList 8 (migrateStep "white".toList 7
      [⟨"b".toList, .legacy, none, none⟩,
       ⟨"g".toList, .arr [], some "white".toList, some 5⟩]) =
      migrateStep "white".toList 7
        [⟨"b".toList, .legacy, none, none⟩,
         ⟨"g".toList, .arr [], some "white".toList, some 5⟩] :=
  ⟨(C4_migrateSlides_idempotent_frame "white".toList 7 8
      [⟨"g".toList, .arr [], some "white".toList, some 5⟩]).1
      ⟨"g".toList, .arr [], some "white".toList, some 5⟩ (by decide)
      (by decide),
   ((C4_migrateSlides_idempotent_frame "white".toList 7 8 []).2.1
      ⟨"b".toList, .legacy, none, none⟩ (by decide)).2.1,
   (C4_migrateSlides_idempotent_frame "white".toList 7 8
      [⟨"g".toList, .arr [], some "white".toList, some 5⟩]).2.2.1
      (by decide),
   (C4_migrateSlides_idempotent_frame "white".toList 7 8
      [⟨"b".toList, .legacy, none, none⟩,
       ⟨"g".toList, .arr [], some "white".toList, some 5⟩]).2.2.2.2⟩

/-- C5: `updateTextBox` merges exactly the given fields into the text box
whose id matches on the slide whose id matches, leaving the box's other
fields, every other text box, and every other slide unchanged; when no slide
or no text box matches, the slide list is unchanged (up to legacy-shape
normalization of a matching slide) and no error is raised. -/
theorem C5_updateTextBox_merge_frame (slides : List Slide)
    (slideId textBoxId : JStr) (u : TextBoxUpd) (slide : Slide)
    (tb : TextBox) :
    (updateTextBoxMutation slides slideId textBoxId u).length =
      slides.length ∧
    (slide.id ≠ slideId →
      updateSlideEntry slideId textBoxId u slide = slide) ∧
    (slide.id = slideId →
      (updateSlideEntry slideId textBoxId u slide).id = slide.id ∧
      (updateSlideEntry slideId textBoxId u slide).backgroundColor =
        slide.backgroundColor ∧
      (updateSlideEntry slideId textBoxId u slide).createdAt =
        slide.createdAt ∧
      (updateSlideEntry slideId textBoxId u slide).textBoxes =
        .arr ((existingTextBoxes slide.textBoxes).map
          (fun tb2 => if tb2.id = textBoxId then mergeTextBox tb2 u
            else tb2))) ∧
    (tb.id ≠ textBoxId →
      (if tb.id = textBoxId then mergeTextBox tb u else tb) = tb) ∧
    ((mergeTextBox tb u).id = u.id.getD tb.id ∧
     (mergeTextBox tb u).text = u.text.getD tb.text ∧
     (mergeTextBox tb u).x = u.x.getD tb.x ∧
     (mergeTextBox tb u).y = u.y.getD tb.y ∧
     (mergeTextBox tb u).width = u.width.getD tb.width ∧
     (mergeTextBox tb u).height = u.height.getD tb.height ∧
     (mergeTextBox tb u).fontSize = u.fontSize.getD tb.fontSize ∧
     (mergeTextBox tb u).color = u.color.getD tb.color ∧
     (mergeTextBox tb u).createdBy = u.createdBy.getD tb.createdBy ∧
     (mergeTextBox tb u).createdAt = u.createdAt.getD tb.createdAt) ∧
    ((∀ sl ∈ slides, sl.id = slideId →
        ∃ l, sl.textBoxes = .arr l ∧ ∀ tb2 ∈ l, tb2.id ≠ textBoxId) →
      updateTextBoxMutation slides slideId textBoxId u = slides) := by
  refine ⟨List.length_map slides _, ?_, ?_, ?_,
    ⟨rfl, rfl, rfl, rfl, rfl, rfl, rfl, rfl, rfl, rfl⟩, ?_⟩
  · intro hne
    simp [updateSlideEntry, hne]
  · intro heq
    refine ⟨?_, ?_, ?_, ?_⟩ <;> simp [updateSlideEntry, heq]
  · intro hne
    simp [hne]
  · intro hno
    have hall : ∀ sl ∈ slides, updateSlideEntry slideId textBoxId u sl = sl := by
      intro sl hsl
      by_cases hid : sl.id = slideId
      · obtain ⟨l, harr, htb⟩ := hno sl hsl hid
        have hmap : l.map (fun tb2 =>
            if tb2.id = textBoxId then mergeTextBox tb2 u else tb2) = l := by
          have := List.map_congr_left (l := l)
            (f := fun tb2 => if tb2.id = textBoxId then mergeTextBox tb2 u
              else tb2) (g := id)
            (fun a ha => by simp [htb a ha])
          simpa using this
        have hex : existingTextBoxes sl.textBoxes = l := by
          rw [harr]
          rfl
        simp only [updateSlideEntry, if_pos hid, hex, hmap, ← harr]
      · simp [updateSlideEntry, hid]
    calc updateTextBoxMutation slides slideId textBoxId u
        = slides.map id := List.map_congr_left hall
      _ = slides := List.map_id slides

/-- Witness for C5 on a one-slide list with two text boxes, moving one box
to `x = 42`. -/
theorem C5_updateTextBox_merge_frame_witness :
    ((⟨"t2".toList, [], 0, 0, 10, 10, 12, "black".toList, "u".toList,
        1⟩ : TextBox).id ≠ "t1".toList →
      (if (⟨"t2".toList, [], 0, 0, 10, 10, 12, "black".toList, "u".toList,
          1⟩ : TextBox).id = "t1".toList then
        mergeTextBox ⟨"t2".toList, [], 0, 0, 10, 10, 12, "black".toList,
          "u".toList, 1⟩ { x := some 42 }
      else ⟨"t2".toList, [], 0, 0, 10, 10, 12, "black".toList, "u".toList,
        1⟩) = ⟨"t2".toList, [], 0, 0, 10, 10, 12, "black".toList,
        "u".toList, 1⟩) ∧
    (mergeTextBox ⟨"t1".toList, [], 0, 0, 10, 10, 12, "black".toList,
      "u".toList, 1⟩ { x := some 42 }).x = (some (42 : Int)).getD 0 ∧
    updateTextBoxMutation [⟨"s1".toList, .arr [⟨"t1".toList, [], 0, 0, 10,
      10, 12, "black".toList, "u".toList, 1⟩], some "white".toList,
      some 1⟩] "zz".toList "t1".toList { x := some 42 } =
      [⟨"s1".toList, .arr [⟨"t1".toList, [], 0, 0, 10, 10, 12,
        "black".toList, "u".toList, 1⟩], some "white".toList, some 1⟩] :=
  ⟨(C5_updateTextBox_merge_frame [] "s1".toList "t1".toList { x := some 42 }
      ⟨"s1".toList, .arr [], none, none⟩
      ⟨"t2".toList, [], 0, 0, 10, 10, 12, "black".toList, "u".toList,
        1⟩).2.2.2.1,
   (C5_updateTextBox_merge_frame [] "s1".toList "t1".toList { x := some 42 }
      ⟨"s1".toList, .arr [], none, none⟩
      ⟨"t1".toList, [], 0, 0, 10, 10, 12, "black".toList, "u".toList,
        1⟩).2.2.2.2.1.2.2.1,
   (C5_updateTextBox_merge_frame [⟨"s1".toList, .arr [⟨"t1".toList, [], 0,
      0, 10, 10, 12, "black".toList, "u".toList, 1⟩], some "white".toList,
      some 1⟩] "zz".toList "t1".toList { x := some 42 }
      ⟨"s1".toList, .arr [], none, none⟩
      ⟨"t1".toList, [], 0, 0, 10, 10, 12, "black".toList, "u".toList,
        1⟩).2.2.2.2.2 (by
          intro sl hsl hid
          rw [List.mem_singleton] at hsl
          subst hsl
          exact absurd hid (by decide))⟩

/-- C6: `deleteSlide` keeps exactly the slides with a different id, in their
original order; deleting an id not present leaves the list unchanged, and no
error is raised. -/
theorem C6_deleteSlide_filter (slides : List Slide) (slideId : JStr) :
    (∀ slide ∈ deleteSlide slides slideId, slide.id ≠ slideId) ∧
    (∀ slide : Slide, slide ∈ deleteSlide slides slideId ↔
      slide ∈ slides ∧ slide.id ≠ slideId) ∧
    (deleteSlide slides slideId).Sublist slides ∧
    ((∀ slide ∈ slides, slide.id ≠ slideId) →
      deleteSlide slides slideId = slides) := by
  refine ⟨?_, ?_, List.filter_sublist slides, ?_⟩
  · intro slide hs
    have := (List.mem_filter.mp hs).2
    simpa using this
  · intro slide
    rw [deleteSlide, List.mem_filter]
    simp
  · intro hall
    rw [deleteSlide, List.filter_eq_self]
    intro a ha
    simpa using hall a ha

/-- Witness for C6: deleting an absent id from a one-slide list. -/
theorem C6_deleteSlide_filter_witness :
    deleteSlide [⟨"a".toList, .arr [], none, none⟩] "z".toList =
      [⟨"a".toList, .arr [], none, none⟩] :=
  (C6_deleteSlide_filter [⟨"a".toList, .arr [], none, none⟩]
    "z".toList).2.2.2 (by decide)

/-! ## Auto-follow effect
(src/src/components/SlideThumbnail.tsx, SlideList, lines 185-215) -/

/-- The presence fields the auto-follow effect reads and writes. -/
structure PresenceR where
  currentSlideId : Option JStr
  editingTextBoxId : Option JStr
  deriving DecidableEq

/-- The auto-follow effect body: when the slide count increased and the
previous count was positive, the effect takes the last slide, checks whether
some other participant's current-slide presence equals its id and the local
participant is not already on it, and if so issues the presence update
switching to the new slide with the editing text box cleared; in every other
case no presence update is issued. -/
def autoFollowUpdate (prevSlideCount : Nat) (slides : List Slide)
    (others : List PresenceR) (myPresence : PresenceR) : Option PresenceR :=
  let currentSlideCount := slides.length
  if currentSlideCount > prevSlideCount ∧ prevSlideCount > 0 then
    match slides.getLast? with
    | none => none
    | some newSlide =>
      if others.any (fun other => other.currentSlideId == some newSlide.id) ∧
          myPresence.currentSlideId ≠ some newSlide.id then
        some { currentSlideId := some newSlide.id, editingTextBoxId := none }
      else none
  else none

/-- C9 counterexample: on the transition from slide count 0 to 1, with
another participant already on the newly appended slide and the local
participant elsewhere, the effect issues no presence update, because the
source additionally requires `prevSlideCount > 0`. -/
theorem C9_autofollow_counterexample :
    ([(⟨"a".toList, .arr [], none, none⟩ : Slide)].length > 0) ∧
    [(⟨"a".toList, .arr [], none, none⟩ : Slide)].getLast? =
      some ⟨"a".toList, .arr [], none, none⟩ ∧
    [(⟨some "a".toList, none⟩ : PresenceR)].any
      (fun other => other.currentSlideId ==
        some (⟨"a".toList, .arr [], none, none⟩ : Slide).id) = true ∧
    (⟨none, none⟩ : PresenceR).currentSlideId ≠
      some (⟨"a".toList, .arr [], none, none⟩ : Slide).id ∧
    autoFollowUpdate 0 [⟨"a".toList, .arr [], none, none⟩]
      [⟨some "a".toList, none⟩] ⟨none, none⟩ = none ∧
    autoFollowUpdate 0 [⟨"a".toList, .arr [], none, none⟩]
      [⟨some "a".toList, none⟩] ⟨none, none⟩ ≠
      some ⟨some "a".toList, none⟩ := by
  decide

/-- C9 (amended): for every transition in which the slide count increases
from a positive previous count, if the newly appended slide's id equals some
other participant's current-slide presence value and the local participant is
not already on that slide, the local presence is updated to the new slide and
the editing-text-box presence is cleared. -/
theorem C9_autofollow_amended (prevSlideCount : Nat) (slides : List Slide)
    (others : List PresenceR) (myPresence : PresenceR) (newSlide : Slide)
    (hprev : prevSlideCount > 0)
    (hinc : slides.length > prevSlideCount)
    (hlast : slides.getLast? = some newSlide)
    (hother : others.any (fun other => other.currentSlideId ==
      some newSlide.id) = true)
    (hme : myPresence.currentSlideId ≠ some newSlide.id) :
    autoFollowUpdate prevSlideCount slides others myPresence =
      some ⟨some newSlide.id, none⟩ := by
  simp only [autoFollowUpdate]
  rw [if_pos ⟨hinc, hprev⟩, hlast]
  simp [hother, hme]

/-- Witness for C9 (amended): count 1 to 2, another participant on the new
slide `b`, local participant on `a`. -/
theorem C9_autofollow_amended_witness :
    autoFollowUpdate 1
      [⟨"a".toList, .arr [], none, none⟩,
       ⟨"b".toList, .arr [], none, none⟩]
      [⟨some "b".toList, none⟩] ⟨some "a".toList, none⟩ =
      some ⟨some "b".toList, none⟩ :=
  C9_autofollow_amended 1
    [⟨"a".toList, .arr [], none, none⟩, ⟨"b".toList, .arr [], none, none⟩]
    [⟨some "b".toList, none⟩] ⟨some "a".toList, none⟩
    ⟨"b".toList, .arr [], none, none⟩ (by decide) (by decide) (by decide)
    (by decide) (by decide)

/-! ## CRDT text binding rebind (src/unnamed/part_003, useYText) -/

/-- The state of one `useYText` binding: the identity of the bound sequence
(`yText`, a handle into the shared map, modelled by a numeric object id) and
the materialized `value` the binding exposes. -/
structure BindingState where
  yText : Nat
  value : JStr
  deriving DecidableEq

/-- `onMapChange` (part_003, lines 148-162): when the containing map reports
a change to the binding's key and the entry now holds a different sequence
object, the binding rebinds to it and immediately re-materializes its value;
in every other case the state is unchanged.  `map` gives the current
sequence id per key and `texts` the materialized string per sequence id. -/
def onMapChange (map : JStr → Option Nat) (texts : Nat → JStr) (key : JStr)
    (keysChanged : List JStr) (st : BindingState) : BindingState :=
  if keysChanged.contains key then
    match map key with
    | some latest => if latest ≠ st.yText then ⟨latest, texts latest⟩ else st
    | none => st
  else st

/-- The observer effect (part_003, lines 134-142): the change observer is
re-attached to whatever sequence is currently bound (the effect depends on
`yText`), so a later change notification re-materializes the exposed value
from the currently bound sequence. -/
def onTextChange (texts : Nat → JStr) (st : BindingState) : BindingState :=
  ⟨st.yText, texts st.yText⟩

/-- C8: when the shared map's entry for the binding's key is replaced by a
different sequence object, the binding rebinds to the new sequence and
immediately re-materializes its value, and a subsequent change notification
(delivered through the observer that followed the rebind, with no explicit
re-subscription) updates the exposed value from the new sequence. -/
theorem C8_rebind_preserves_observers (map : JStr → Option Nat)
    (texts texts2 : Nat → JStr) (key : JStr) (keysChanged : List JStr)
    (st : BindingState) (latest : Nat)
    (hkey : keysChanged.contains key = true)
    (hmap : map key = some latest)
    (hne : latest ≠ st.yText) :
    (onMapChange map texts key keysChanged st).yText = latest ∧
    (onMapChange map texts key keysChanged st).value = texts latest ∧
    onTextChange texts2 (onMapChange map texts key keysChanged st) =
      ⟨latest, texts2 latest⟩ := by
  have hk : key ∈ keysChanged := by simpa using hkey
  simp [onMapChange, onTextChange, hk, hmap, hne]

/-- Witness for C8: key `k` is rebound from sequence 1 to sequence 2; the
stale value is replaced and a later notification delivers the new
sequence's text. -/
theorem C8_rebind_preserves_observers_witness :
    (["k".toList].contains "k".toList = true) ∧
    onTextChange (fun n => if n = 2 then "fresh".toList else "stale".toList)
      (onMapChange (fun k => if k = "k".toList then some 2 else none)
        (fun n => if n = 2 then "new".toList else "old".toList)
        "k".toList ["k".toList] ⟨1, "old".toList⟩) =
      ⟨2, "fresh".toList⟩ :=
  ⟨by decide,
   (C8_rebind_preserves_observers
      (fun k => if k = "k".toList then some 2 else none)
      (fun n => if n = 2 then "new".toList else "old".toList)
      (fun n => if n = 2 then "fresh".toList else "stale".toList)
      "k".toList ["k".toList] ⟨1, "old".toList⟩ 2 (by decide) (by simp)
      (by decide)).2.2⟩

/-! ## Undo scoping (src/unnamed/part_003: origin tagging inside `setValue`,
lines 218-246, and the UndoManager construction, lines 166-187) -/

/-- A character item of the replicated text sequence: a stable identity, the
character, and a tombstone flag.  Modelled from the spec: the replicated
sequence itself lives in the external sync library; its items carry stable
identities so that concurrent edits and undo address characters by identity
rather than by position. -/
structure Item where
  id : Nat
  ch : Char
  deleted : Bool
  deriving DecidableEq

/-- A replicated text sequence: its items in sequence order. -/
abbrev YDoc := List Item

/-- The materialized string: the characters of the non-deleted items. -/
def docText (d : YDoc) : JStr :=
  (d.filter (fun it => !it.deleted)).map (fun it => it.ch)

/-- A replicated transaction record: the origin tag it was committed with,
the ids of the items it inserted, and the ids of the items it deleted. -/
structure Tx where
  origin : Nat
  insertedIds : List Nat
  deletedIds : List Nat
  deriving DecidableEq

/-- Modelled from the spec: inserting items at a visible position of the
sequence (tombstones do not count toward the position). -/
def insertItems : YDoc → Nat → List Item → YDoc
  | d, 0, its => its ++ d
  | [], _ + 1, its => its
  | it :: rest, pos + 1, its =>
    if it.deleted then it :: insertItems rest (pos + 1) its
    else it :: insertItems rest pos its

/-- Modelled from the spec: deleting `len` characters at a visible position
marks the next `len` non-deleted items as deleted, recording their ids. -/
def deleteItems : YDoc → Nat → Nat → YDoc × List Nat
  | [], _, _ => ([], [])
  | it :: rest, pos, len =>
    if it.deleted then
      (it :: (deleteItems rest pos len).1, (deleteItems rest pos len).2)
    else
      match pos, len with
      | p + 1, _ =>
        (it :: (deleteItems rest p len).1, (deleteItems rest p len).2)
      | 0, 0 => (it :: rest, [])
      | 0, l + 1 =>
        ({ it with deleted := true } :: (deleteItems rest 0 l).1,
          it.id :: (deleteItems rest 0 l).2)

/-- Fresh items for an inserted string, ids counting up from `ctr`. -/
def freshItems (ctr : Nat) : JStr → List Item
  | [] => []
  | c :: cs => ⟨ctr, c, false⟩ :: freshItems (ctr + 1) cs

/-- The transaction body of `setValue` (part_003, lines 218-246) operating
on the item-level sequence: the guarded delete of `d` visible characters at
position `p`, then the guarded insert of `ins`, committed as one transaction
tagged with the given origin.  Fresh items take ids from `ctr`. -/
def setValueYCore (origin : Nat) (doc : YDoc) (ctr : Nat) (p d : Nat)
    (ins : JStr) : YDoc × Nat × Tx :=
  let delRes := if 0 < d then deleteItems doc p d else (doc, [])
  let newItems := freshItems ctr ins
  let doc2 := if 0 < ins.length then insertItems delRes.1 p newItems
    else delRes.1
  (doc2, ctr + ins.length,
    ⟨origin, newItems.map (fun it => it.id), delRes.2⟩)

/-- `setValue` (part_003, lines 212-247) operating on the item-level
sequence: short-circuits when `prev === next`, otherwise computes the same
minimal diff and commits the transaction.  Returns the new sequence, the
fresh-id counter, and the committed transaction (`none` when it
short-circuited). -/
def setValueY (origin : Nat) (doc : YDoc) (ctr : Nat) (next : JStr) :
    YDoc × Nat × Option Tx :=
  let prev := docText doc
  if prev = next then (doc, ctr, none)
  else
    match diffOf prev next with
    | (p, _, d, ins) =>
      let r := setValueYCore origin doc ctr p d ins
      (r.1, r.2.1, some r.2.2)

/-- Modelled from the spec: inverting one transaction on one item — items it
inserted become deleted, items it deleted are restored, all others are
untouched. -/
def undoItem (tx : Tx) (it : Item) : Item :=
  if it.id ∈ tx.insertedIds then { it with deleted := true }
  else if it.id ∈ tx.deletedIds then { it with deleted := false }
  else it

/-- Modelled from the spec: inverting one transaction on the document. -/
def undoTx (doc : YDoc) (tx : Tx) : YDoc :=
  doc.map (undoItem tx)

/-- The tracked-origins set the binding passes to the undo manager
(part_003, lines 175-177): exactly the binding's local origin marker. -/
def trackedOrigins (origin : Nat) : List Nat := [origin]

/-- Modelled from the spec: `undo()` reverts the most recent transaction
whose origin is in the tracked set, and is a no-op when there is none. -/
def undoLast (tracked : List Nat) (log : List Tx) (doc : YDoc) : YDoc :=
  match (log.filter (fun tx => decide (tx.origin ∈ tracked))).getLast? with
  | none => doc
  | some tx => undoTx doc tx

/-- A run of local `setValue` calls from a given state, accumulating the
transaction log (the scenario harness for the undo-scoping property). -/
def runLocalAux (o : Nat) : List JStr → YDoc → Nat → List Tx →
    YDoc × Nat × List Tx
  | [], doc, ctr, log => (doc, ctr, log)
  | e :: es, doc, ctr, log =>
    match setValueY o doc ctr e with
    | (doc', ctr', none) => runLocalAux o es doc' ctr' log
    | (doc', ctr', some tx) => runLocalAux o es doc' ctr' (log ++ [tx])

/-- A run of local `setValue` calls starting from the empty document. -/
def runLocal (o : Nat) (edits : List JStr) : YDoc × Nat × List Tx :=
  runLocalAux o edits [] 0 []

/-- `deleteItems` only toggles tombstone flags: the item ids, in order, are
unchanged. -/
theorem deleteItems_ids : ∀ (doc : YDoc) (pos len : Nat),
    ((deleteItems doc pos len).1).map (fun it => it.id) =
      doc.map (fun it => it.id)
  | [], _, _ => by simp [deleteItems]
  | it :: rest, pos, len => by
    by_cases hdel : it.deleted
    · simp [deleteItems, hdel, deleteItems_ids rest pos len]
    · rcases pos with _ | p
      · rcases len with _ | l
        · simp [deleteItems, hdel]
        · simp [deleteItems, hdel, deleteItems_ids rest 0 l]
      · simp [deleteItems, hdel, deleteItems_ids rest p len]

/-- Every id recorded by `deleteItems` belongs to an item that was present
and not yet deleted in the input. -/
theorem deleteItems_delIds : ∀ (doc : YDoc) (pos len : Nat) (i : Nat),
    i ∈ (deleteItems doc pos len).2 →
    ∃ it0 ∈ doc, it0.id = i ∧ it0.deleted = false
  | [], _, _, _ => by simp [deleteItems]
  | it :: rest, pos, len, i => by
    intro hi
    by_cases hdel : it.deleted
    · simp only [deleteItems, hdel, if_true] at hi
      obtain ⟨it0, h0, h1, h2⟩ := deleteItems_delIds rest pos len i hi
      exact ⟨it0, List.mem_cons_of_mem it h0, h1, h2⟩
    · rcases pos with _ | p
      · rcases len with _ | l
        · simp [deleteItems, hdel] at hi
        · simp only [deleteItems, hdel, Bool.false_eq_true, if_false,
            List.mem_cons] at hi
          rcases hi with hi | hi
          · exact ⟨it, List.mem_cons_self it rest, hi.symm,
              Bool.not_eq_true _ ▸ hdel⟩
          · obtain ⟨it0, h0, h1, h2⟩ := deleteItems_delIds rest 0 l i hi
            exact ⟨it0, List.mem_cons_of_mem it h0, h1, h2⟩
      · simp only [deleteItems, hdel, Bool.false_eq_true, if_false] at hi
        obtain ⟨it0, h0, h1, h2⟩ := deleteItems_delIds rest p len i hi
        exact ⟨it0, List.mem_cons_of_mem it h0, h1, h2⟩

/-- In the output of `deleteItems` on a duplicate-free document, every item
whose id was recorded as deleted does carry the tombstone flag. -/
theorem deleteItems_marked : ∀ (doc : YDoc) (pos len : Nat),
    (doc.map (fun x => x.id)).Nodup →
    ∀ it2 ∈ (deleteItems doc pos len).1,
      it2.id ∈ (deleteItems doc pos len).2 → it2.deleted = true
  | [], _, _ => by simp [deleteItems]
  | it :: rest, pos, len => by
    intro hnd it2 hmem hid
    rw [List.map_cons, List.nodup_cons] at hnd
    obtain ⟨hhead, hnd2⟩ := hnd
    by_cases hdel : it.deleted
    · simp only [deleteItems, hdel, if_true] at hmem hid
      rcases List.mem_cons.mp hmem with h1 | h1
      · subst h1
        exact hdel
      · exact deleteItems_marked rest pos len hnd2 it2 h1 hid
    · rcases pos with _ | p
      · rcases len with _ | l
        · simp [deleteItems, hdel] at hid
        · simp only [deleteItems, hdel, Bool.false_eq_true, if_false,
            List.mem_cons] at hmem hid
          rcases hmem with h1 | h1
          · rw [h1]
          · rcases hid with h2 | h2
            · exfalso
              apply hhead
              have : it2.id ∈ ((deleteItems rest 0 l).1).map
                  (fun x => x.id) := List.mem_map_of_mem _ h1
              rw [deleteItems_ids] at this
              rw [← h2]
              exact this
            · exact deleteItems_marked rest 0 l hnd2 it2 h1 h2
      · simp only [deleteItems, hdel, Bool.false_eq_true, if_false,
          List.mem_cons] at hmem hid
        rcases hmem with h1 | h1
        · exfalso
          apply hhead
          obtain ⟨it0, h0, hi0, _⟩ := deleteItems_delIds rest p len it2.id hid
          rw [h1] at hi0
          rw [← hi0]
          exact List.mem_map_of_mem _ h0
        · exact deleteItems_marked rest p len hnd2 it2 h1 hid

/-- `insertItems` produces a permutation of the new items and the old
document. -/
theorem insertItems_perm : ∀ (d : YDoc) (pos : Nat) (its : List Item),
    (insertItems d pos its).Perm (its ++ d)
  | d, 0, its => by simp [insertItems]
  | [], _ + 1, its => by simp [insertItems]
  | it :: rest, pos + 1, its => by
    by_cases hdel : it.deleted
    · simp only [insertItems, if_pos hdel]
      exact ((insertItems_perm rest (pos + 1) its).cons it).trans
        List.perm_middle.symm
    · simp only [insertItems, if_neg hdel]
      exact ((insertItems_perm rest pos its).cons it).trans
        List.perm_middle.symm

/-- Fresh items carry ids in `[ctr, ctr + length)` and are not deleted. -/
theorem freshItems_mem : ∀ (s : JStr) (ctr : Nat) (it : Item),
    it ∈ freshItems ctr s →
    ctr ≤ it.id ∧ it.id < ctr + s.length ∧ it.deleted = false
  | [], _, _ => by simp [freshItems]
  | c :: cs, ctr, it => by
    intro h
    rcases List.mem_cons.mp h with h1 | h1
    · subst h1
      refine ⟨le_refl _, ?_, rfl⟩
      simp only [List.length_cons]
      omega
    · obtain ⟨h2, h3, h4⟩ := freshItems_mem cs (ctr + 1) it h1
      refine ⟨by omega, ?_, h4⟩
      simp only [List.length_cons]
      omega

/-- Fresh item ids are duplicate-free. -/
theorem freshItems_nodup : ∀ (s : JStr) (ctr : Nat),
    ((freshItems ctr s).map (fun it => it.id)).Nodup
  | [], _ => by simp [freshItems]
  | c :: cs, ctr => by
    simp only [freshItems, List.map_cons]
    refine List.Nodup.cons ?_ (freshItems_nodup cs (ctr + 1))
    intro hmem
    obtain ⟨it, hit, hid⟩ := List.mem_map.mp hmem
    have hb := (freshItems_mem cs (ctr + 1) it hit).1
    omega

/-- Invariant of a document against the fresh-id counter: every item id is
below the counter and ids are duplicate-free. -/
def DocInv (doc : YDoc) (ctr : Nat) : Prop :=
  (∀ it ∈ doc, it.id < ctr) ∧ (doc.map (fun it => it.id)).Nodup

/-- What one committed `setValue` transaction guarantees: the resulting
document keeps the invariant at the advanced counter, inserted ids are
exactly fresh, deleted ids belonged to live items of the input, and the
items so recorded are tombstoned in the result. -/
theorem setValueYCore_spec (o : Nat) (doc : YDoc) (ctr : Nat) (p d : Nat)
    (ins : JStr) (hinv : DocInv doc ctr) :
    DocInv (setValueYCore o doc ctr p d ins).1 (ctr + ins.length) ∧
    (setValueYCore o doc ctr p d ins).2.1 = ctr + ins.length ∧
    (setValueYCore o doc ctr p d ins).2.2.origin = o ∧
    (∀ i ∈ (setValueYCore o doc ctr p d ins).2.2.insertedIds,
      ctr ≤ i ∧ i < ctr + ins.length) ∧
    (∀ i ∈ (setValueYCore o doc ctr p d ins).2.2.deletedIds,
      ∃ it0 ∈ doc, it0.id = i ∧ it0.deleted = false) ∧
    (∀ it ∈ (setValueYCore o doc ctr p d ins).1,
      it.id ∈ (setValueYCore o doc ctr p d ins).2.2.deletedIds →
        it.deleted = true) := by
  obtain ⟨hbound, hnodup⟩ := hinv
  have hcore : setValueYCore o doc ctr p d ins =
      (if 0 < ins.length then
        insertItems (if 0 < d then deleteItems doc p d else (doc, [])).1 p
          (freshItems ctr ins)
      else (if 0 < d then deleteItems doc p d else (doc, [])).1,
      ctr + ins.length,
      ⟨o, (freshItems ctr ins).map (fun it => it.id),
        (if 0 < d then deleteItems doc p d else (doc, [])).2⟩) := rfl
  have hids : (if 0 < d then deleteItems doc p d else (doc, [])).1.map
      (fun it => it.id) = doc.map (fun it => it.id) := by
    by_cases hd : 0 < d
    · rw [if_pos hd]
      exact deleteItems_ids doc p d
    · rw [if_neg hd]
  have hdel2 : ∀ i ∈ (if 0 < d then deleteItems doc p d else (doc, [])).2,
      ∃ it0 ∈ doc, it0.id = i ∧ it0.deleted = false := by
    by_cases hd : 0 < d
    · rw [if_pos hd]
      exact deleteItems_delIds doc p d
    · rw [if_neg hd]
      simp
  have hmarked : ∀ it2 ∈ (if 0 < d then deleteItems doc p d else
        (doc, [])).1,
      it2.id ∈ (if 0 < d then deleteItems doc p d else (doc, [])).2 →
        it2.deleted = true := by
    by_cases hd : 0 < d
    · rw [if_pos hd]
      exact deleteItems_marked doc p d hnodup
    · rw [if_neg hd]
      simp
  have hbound1 : ∀ it ∈ (if 0 < d then deleteItems doc p d else
      (doc, [])).1, it.id < ctr := by
    intro it hit
    have : it.id ∈ (if 0 < d then deleteItems doc p d else
        (doc, [])).1.map (fun x => x.id) := List.mem_map_of_mem _ hit
    rw [hids] at this
    obtain ⟨it0, h0, h1⟩ := List.mem_map.mp this
    rw [← h1]
    exact hbound it0 h0
  have hmem2 : ∀ it ∈ (setValueYCore o doc ctr p d ins).1,
      it ∈ freshItems ctr ins ∨
      it ∈ (if 0 < d then deleteItems doc p d else (doc, [])).1 := by
    rw [hcore]
    by_cases hi : 0 < ins.length
    · rw [if_pos hi]
      intro it hit
      have := (insertItems_perm _ p (freshItems ctr ins)).mem_iff.mp hit
      exact List.mem_append.mp this
    · rw [if_neg hi]
      intro it hit
      exact Or.inr hit
  refine ⟨⟨?_, ?_⟩, rfl, rfl, ?_, ?_, ?_⟩
  · intro it hit
    rcases hmem2 it hit with hf | ho
    · exact (freshItems_mem ins ctr it hf).2.1
    · have := hbound1 it ho
      omega
  · rw [hcore]
    by_cases hi : 0 < ins.length
    · rw [if_pos hi]
      have hperm := (insertItems_perm
        (if 0 < d then deleteItems doc p d else (doc, [])).1 p
        (freshItems ctr ins)).map (fun it => it.id)
      rw [hperm.nodup_iff, List.map_append, List.nodup_append]
      refine ⟨freshItems_nodup ins ctr, by rw [hids]; exact hnodup, ?_⟩
      intro a ha hb
      obtain ⟨it1, hit1, hid1⟩ := List.mem_map.mp ha
      have h1 := (freshItems_mem ins ctr it1 hit1).1
      obtain ⟨it2, hit2, hid2⟩ := List.mem_map.mp hb
      have h2 := hbound1 it2 hit2
      omega
    · rw [if_neg hi, hids]
      exact hnodup
  · rw [hcore]
    intro i hi
    obtain ⟨it, hit, hid⟩ := List.mem_map.mp hi
    obtain ⟨h1, h2, _⟩ := freshItems_mem ins ctr it hit
    omega
  · rw [hcore]
    exact hdel2
  · intro it hit hdtl
    rw [hcore] at hdtl
    rcases hmem2 it hit with hf | ho
    · exfalso
      obtain ⟨it0, h0, h1, _⟩ := hdel2 it.id hdtl
      have hlow : it.id < ctr := h1 ▸ hbound it0 h0
      have := (freshItems_mem ins ctr it hf).1
      omega
    · exact hmarked it ho hdtl

/-- Lifting `setValueYCore_spec` through the `prev === next` short-circuit
of `setValueY`. -/
theorem setValueY_spec (o : Nat) (doc : YDoc) (ctr : Nat) (next : JStr)
    (doc' : YDoc) (ctr' : Nat) (otx : Option Tx)
    (hinv : DocInv doc ctr)
    (h : setValueY o doc ctr next = (doc', ctr', otx)) :
    DocInv doc' ctr' ∧ ctr ≤ ctr' ∧
    (otx = none → doc' = doc ∧ ctr' = ctr) ∧
    (∀ tx, otx = some tx →
      tx.origin = o ∧
      (∀ i ∈ tx.insertedIds, ctr ≤ i ∧ i < ctr') ∧
      (∀ i ∈ tx.deletedIds, ∃ it0 ∈ doc, it0.id = i ∧
        it0.deleted = false) ∧
      (∀ it ∈ doc', it.id ∈ tx.deletedIds → it.deleted = true)) := by
  by_cases heq : docText doc = next
  · have h2 : (doc, ctr, (none : Option Tx)) = (doc', ctr', otx) := by
      rw [← h, setValueY]
      simp [heq]
    rw [Prod.mk.injEq, Prod.mk.injEq] at h2
    obtain ⟨hd, hc, ho⟩ := h2
    subst hd
    subst hc
    subst ho
    refine ⟨hinv, le_refl _, fun _ => ⟨rfl, rfl⟩, ?_⟩
    intro tx htx
    simp at htx
  · rcases hdiff : diffOf (docText doc) next with ⟨p, s, d, ins⟩
    have h2 : ((setValueYCore o doc ctr p d ins).1,
        (setValueYCore o doc ctr p d ins).2.1,
        some (setValueYCore o doc ctr p d ins).2.2) =
          (doc', ctr', otx) := by
      rw [← h, setValueY]
      simp [heq, hdiff]
    rw [Prod.mk.injEq, Prod.mk.injEq] at h2
    obtain ⟨hd, hc, ho⟩ := h2
    obtain ⟨hinv2, hctr2, horig, hins, hdel, hmark⟩ :=
      setValueYCore_spec o doc ctr p d ins hinv
    subst hd
    have hctr' : ctr' = ctr + ins.length := by rw [← hc, hctr2]
    refine ⟨?_, ?_, ?_, ?_⟩
    · rw [hctr']
      exact hinv2
    · rw [hctr']
      exact Nat.le_add_right ctr ins.length
    · intro hnone
      rw [← ho] at hnone
      simp at hnone
    · intro tx htx
      rw [← ho] at htx
      obtain htx2 := Option.some.inj htx
      subst htx2
      refine ⟨horig, ?_, hdel, hmark⟩
      intro i hi
      rw [hctr']
      exact hins i hi

/-- Invariant of the accumulated local transaction log: every transaction is
tagged with the local origin, its ids are below the counter, its deleted ids
are disjoint from its own inserted ids, and the most recent transaction's
deletions are tombstoned in the current document. -/
def LogInv (o ctr : Nat) (doc : YDoc) (log : List Tx) : Prop :=
  (∀ tx ∈ log, tx.origin = o ∧ (∀ i ∈ tx.insertedIds, i < ctr) ∧
    (∀ i ∈ tx.deletedIds, i < ctr) ∧
    (∀ i ∈ tx.deletedIds, i ∉ tx.insertedIds)) ∧
  (∀ txn, log.getLast? = some txn →
    ∀ it ∈ doc, it.id ∈ txn.deletedIds → it.deleted = true)

/-- The run of local edits preserves both invariants and the counter is
monotone. -/
theorem runLocalAux_inv (o : Nat) : ∀ (es : List JStr) (doc : YDoc)
    (ctr : Nat) (log : List Tx), DocInv doc ctr → LogInv o ctr doc log →
    DocInv (runLocalAux o es doc ctr log).1
        (runLocalAux o es doc ctr log).2.1 ∧
    ctr ≤ (runLocalAux o es doc ctr log).2.1 ∧
    LogInv o (runLocalAux o es doc ctr log).2.1
      (runLocalAux o es doc ctr log).1 (runLocalAux o es doc ctr log).2.2
  | [], doc, ctr, log => fun hd hl => ⟨hd, le_refl _, hl⟩
  | e :: es, doc, ctr, log => by
    intro hd hl
    rcases hsv : setValueY o doc ctr e with ⟨doc', ctr', otx⟩
    obtain ⟨hinv', hle, hnone, hsome⟩ :=
      setValueY_spec o doc ctr e doc' ctr' otx hd hsv
    rcases otx with _ | tx
    · obtain ⟨hdoc, hctr⟩ := hnone rfl
      subst hdoc
      subst hctr
      simp only [runLocalAux, hsv]
      exact runLocalAux_inv o es _ _ log hd hl
    · obtain ⟨horig, hins, hdel, hmark⟩ := hsome tx rfl
      have hlog' : LogInv o ctr' doc' (log ++ [tx]) := by
        constructor
        · intro tx2 htx2
          rcases List.mem_append.mp htx2 with hmem | hmem
          · obtain ⟨h1, h2, h3, h4⟩ := hl.1 tx2 hmem
            exact ⟨h1, fun i hi => lt_of_lt_of_le (h2 i hi) hle,
              fun i hi => lt_of_lt_of_le (h3 i hi) hle, h4⟩
          · rw [List.mem_singleton] at hmem
            subst hmem
            refine ⟨horig, fun i hi => (hins i hi).2, ?_, ?_⟩
            · intro i hi
              obtain ⟨it0, h0, h1, _⟩ := hdel i hi
              have hlow := hd.1 it0 h0
              omega
            · intro i hi hins2
              obtain ⟨it0, h0, h1, _⟩ := hdel i hi
              have hlow := hd.1 it0 h0
              have := (hins i hins2).1
              omega
        · intro txn hlastc it hit hdid
          rw [List.getLast?_concat] at hlastc
          obtain hrfl := Option.some.inj hlastc
          subst hrfl
          exact hmark it hit hdid
      have hrec := runLocalAux_inv o es doc' ctr' (log ++ [tx]) hinv' hlog'
      simp only [runLocalAux, hsv]
      exact ⟨hrec.1, le_trans hle hrec.2.1, hrec.2.2⟩

/-- C7: every transaction issued by `setValue` is tagged with the given
origin marker, the undo manager tracks exactly the binding's local marker,
and for every run of local edits followed by one remote transaction,
`undo()` selects exactly the most recent local transaction — tombstoning
the items it inserted and restoring the items it deleted — while every item
the remote transaction inserted is untouched and every item it deleted
stays deleted. -/
theorem C7_undo_scoped_to_local_origin (oL oR : Nat) (edits : List JStr)
    (r : JStr) (docL : YDoc) (ctrL : Nat) (logL : List Tx) (txn : Tx)
    (docF : YDoc) (ctrF : Nat) (txR : Tx)
    (hne : oR ≠ oL)
    (hrun : runLocal oL edits = (docL, ctrL, logL))
    (hlast : logL.getLast? = some txn)
    (hremote : setValueY oR docL ctrL r = (docF, ctrF, some txR)) :
    (∀ tx ∈ logL, tx.origin = oL) ∧
    txR.origin = oR ∧
    trackedOrigins oL = [oL] ∧
    undoLast (trackedOrigins oL) (logL ++ [txR]) docF = undoTx docF txn ∧
    (∀ it ∈ docF, it.id ∈ txR.insertedIds → undoItem txn it = it) ∧
    (∀ it ∈ docF, it.id ∈ txR.deletedIds →
      it.deleted = true ∧ (undoItem txn it).deleted = true) ∧
    (∀ it ∈ docF, it.id ∈ txn.insertedIds →
      (undoItem txn it).deleted = true) ∧
    (∀ it ∈ docF, it.id ∈ txn.deletedIds →
      (undoItem txn it).deleted = false) := by
  have hinit : DocInv [] 0 := ⟨by simp, by simp⟩
  have hloginit : LogInv oL 0 [] [] := ⟨by simp, by simp⟩
  have hrunInv := runLocalAux_inv oL edits [] 0 [] hinit hloginit
  rw [show runLocalAux oL edits [] 0 [] = runLocal oL edits from rfl,
    hrun] at hrunInv
  dsimp only at hrunInv
  have hdocInv := hrunInv.1
  have hlogtx := hrunInv.2.2.1
  have hlogdel := hrunInv.2.2.2
  obtain ⟨-, -, -, hsomeR⟩ :=
    setValueY_spec oR docL ctrL r docF ctrF (some txR) hdocInv hremote
  obtain ⟨horigR, hinsR, hdelR, hmarkR⟩ := hsomeR txR rfl
  have htxnmem : txn ∈ logL := List.mem_of_mem_getLast? hlast
  obtain ⟨htxnorig, htxnins, htxndel, htxndisj⟩ := hlogtx txn htxnmem
  have hfl : logL.filter
      (fun tx => decide (tx.origin ∈ trackedOrigins oL)) = logL := by
    rw [List.filter_eq_self]
    intro tx htx
    simp [trackedOrigins, (hlogtx tx htx).1]
  have hfr : [txR].filter
      (fun tx => decide (tx.origin ∈ trackedOrigins oL)) = [] := by
    simp [trackedOrigins, horigR, hne]
  have hundo : undoLast (trackedOrigins oL) (logL ++ [txR]) docF =
      undoTx docF txn := by
    rw [undoLast, List.filter_append, hfl, hfr, List.append_nil, hlast]
  have hRins : ∀ it ∈ docF, it.id ∈ txR.insertedIds →
      undoItem txn it = it := by
    intro it hit hi
    have h1 := (hinsR it.id hi).1
    have h2 : it.id ∉ txn.insertedIds := fun hx => by
      have := htxnins it.id hx
      omega
    have h3 : it.id ∉ txn.deletedIds := fun hx => by
      have := htxndel it.id hx
      omega
    simp [undoItem, h2, h3]
  have hRdel : ∀ it ∈ docF, it.id ∈ txR.deletedIds →
      it.deleted = true ∧ (undoItem txn it).deleted = true := by
    intro it hit hi
    have hdel1 : it.deleted = true := hmarkR it hit hi
    have hnotdel : it.id ∉ txn.deletedIds := by
      intro hx
      obtain ⟨it0, h0, h1, h2⟩ := hdelR it.id hi
      have hmem0 : it0.id ∈ txn.deletedIds := by
        rw [h1]
        exact hx
      have hcontr := hlogdel txn hlast it0 h0 hmem0
      rw [hcontr] at h2
      exact Bool.noConfusion h2
    refine ⟨hdel1, ?_⟩
    by_cases hx : it.id ∈ txn.insertedIds
    · simp [undoItem, hx]
    · simp [undoItem, hx, hnotdel, hdel1]
  have hLins : ∀ it ∈ docF, it.id ∈ txn.insertedIds →
      (undoItem txn it).deleted = true := by
    intro it hit hi
    simp [undoItem, hi]
  have hLdel : ∀ it ∈ docF, it.id ∈ txn.deletedIds →
      (undoItem txn it).deleted = false := by
    intro it hit hi
    have hnx : it.id ∉ txn.insertedIds := htxndisj it.id hi
    simp [undoItem, hnx, hi]
  exact ⟨fun tx htx => (hlogtx tx htx).1, horigR, rfl, hundo, hRins, hRdel,
    hLins, hLdel⟩

/-- Witness for C7: one local edit inserting `"a"` (origin 0), one remote
edit appending `"b"` (origin 1); undo selects the local transaction. -/
theorem C7_undo_scoped_to_local_origin_witness :
    ((1 : Nat) ≠ 0) ∧
    runLocal 0 ["a".toList] = ([⟨0, 'a', false⟩], 1, [⟨0, [0], []⟩]) ∧
    setValueY 1 [⟨0, 'a', false⟩] 1 "ab".toList =
      ([⟨0, 'a', false⟩, ⟨1, 'b', false⟩], 2, some ⟨1, [1], []⟩) ∧
    undoLast (trackedOrigins 0) ([⟨0, [0], []⟩] ++ [⟨1, [1], []⟩])
        [⟨0, 'a', false⟩, ⟨1, 'b', false⟩] =
      undoTx [⟨0, 'a', false⟩, ⟨1, 'b', false⟩] ⟨0, [0], []⟩ :=
  ⟨by decide, by decide, by decide,
    (C7_undo_scoped_to_local_origin 0 1 ["a".toList] "ab".toList
      [⟨0, 'a', false⟩] 1 [⟨0, [0], []⟩] ⟨0, [0], []⟩
      [⟨0, 'a', false⟩, ⟨1, 'b', false⟩] 2 ⟨1, [1], []⟩
      (by decide) (by decide) (by decide) (by decide)).2.2.2.1⟩
